import Mathlib

/-!
Shallow embedding of `datastore_loader.py` (and the error-classification part
of `ckan_client.py`): the schema-resolution and upload pipeline that loads a
tabular resource into the CKAN Datastore.

Conventions of the embedding:
* Python strings are Lean `String`s (or `List Char` where character-level
  reasoning is needed); Python `None`-as-db-NULL is `PyVal.null`.
* The external HTTP transport is a function `resp : DsAction → HttpResponse`
  giving, for each action the pipeline may issue, the remote's response.
* The pipeline is modelled as a function returning the list of observable
  events (remote calls issued, row conversions started), in order, together
  with the terminating error, if any.
* Functions from the external `messytables` library (cell-type casts,
  `headers_make_unique`) are not part of this repository's source; they are
  modelled from the spec and carry a doc comment saying so.
-/

namespace DatastoreLoader

/-! ## String utilities -/

/-- Characters removed by Python's `str.strip()` (ASCII whitespace). -/
def isPySpace (c : Char) : Bool :=
  c = ' ' || c = '\t' || c = '\n' || c = '\r' || c = '\x0b' || c = '\x0c'

/-- Python `str.strip()` on a character list. -/
def pyStripChars (l : List Char) : List Char :=
  ((l.dropWhile isPySpace).reverse.dropWhile isPySpace).reverse

/-- Python `str.strip()`. -/
def pyStrip (s : String) : String :=
  ⟨pyStripChars s.data⟩

/-- Numeric value of a decimal digit character. -/
def digitVal (c : Char) : Nat := c.toNat - 48

/-- Natural number denoted by a list of decimal digit characters. -/
def natOfDigits (cs : List Char) : Nat :=
  cs.foldl (fun n c => 10 * n + digitVal c) 0

/-- Modelled from the spec: the "numeric parse" used for `float`/`numeric`
columns (the external messytables `FloatType.cast`, essentially Python's
`float()` on plain decimal literals): optional sign, decimal digits with an
optional fractional part. -/
def parseFloat (s : String) : Option Rat :=
  let (neg, body) :=
    match (pyStrip s).data with
    | '-' :: r => (true, r)
    | '+' :: r => (false, r)
    | r => (false, r)
  let ip := body.takeWhile (fun c => c ≠ '.')
  let rest := body.dropWhile (fun c => c ≠ '.')
  if ip.all Char.isDigit then
    match rest with
    | [] =>
        if ip.isEmpty then none
        else some (if neg then -(natOfDigits ip : Rat) else (natOfDigits ip : Rat))
    | _ :: fp =>
        if fp.all Char.isDigit ∧ ¬(ip.isEmpty ∧ fp.isEmpty) then
          let n : Rat := ((natOfDigits ip * 10 ^ fp.length + natOfDigits fp : Nat) : Rat) / ((10 ^ fp.length : Nat) : Rat)
          some (if neg then -n else n)
        else none
  else none

/-- Modelled from the spec: the integer parse used for `int` columns (the
external messytables `IntegerType.cast`, essentially Python's `int()`). -/
def parseInt (s : String) : Option Int :=
  let (neg, body) :=
    match (pyStrip s).data with
    | '-' :: r => (true, r)
    | '+' :: r => (false, r)
    | r => (false, r)
  if ¬body.isEmpty ∧ body.all Char.isDigit then
    some (if neg then -(natOfDigits body : Int) else (natOfDigits body : Int))
  else none

/-! ## Pipeline data model -/

/-- One resolved column of the schema: `schema["columns"][i]` has a `name`
and a `type` (a datastore type-vocabulary string). -/
structure Column where
  name : String
  type : String
deriving DecidableEq

/-- A JSON-serializable cell value passed to the datastore API. -/
inductive PyVal
  | str (s : String)
  | num (q : Rat)
  | intv (n : Int)
  | null
deriving DecidableEq

/-- A converted row, as sent to the API: a mapping from column name to value
(modelled as an association list in column order). -/
abbrev DsRecord := List (String × PyVal)

/-- The remote datastore actions the pipeline can issue. -/
inductive DsAction
  | delete (rid : String)
  | create (rid : String) (fields : List Column)
  | insert (rid : String) (records : List DsRecord)
deriving DecidableEq

/-- Observable events of a pipeline run: a remote call being issued, or the
conversion of the row with the given 0-based row number beginning. -/
inductive Event
  | call (a : DsAction)
  | convert (rownum : Nat)
deriving DecidableEq

/-- The JSON `error` object of a failed CKAN response, as far as the loader
inspects it: its `"__type"` field. `some p` models a response body that
decodes as JSON, has an `"error"` key, and whose error object has `"__type"`
(any other body is modelled as `none`, since the `try` block in `ckan`
swallows the decoding/key errors and falls back to the raw body). -/
structure ErrPayload where
  typeName : String
deriving DecidableEq

/-- An HTTP response to a CKAN action call: status code plus the decodable
error payload, if any. -/
structure HttpResponse where
  code : Nat
  errorPayload : Option ErrPayload
deriving DecidableEq

/-- The errors the modelled pipeline can terminate with.
`invalidCell`, `rowShape`, `invalidDatatype`, `missingColumn` and
`permissionDenied` model `UserError`s (the error message's data is carried
structurally: `invalidCell` carries the raw value, the 1-based row and column
numbers, the column name and the target type exactly as formatted into the
message); `apiError` models `UnhandledError`; `keyError` models an uncaught
Python `KeyError` (a crash, not a classified error). -/
inductive LoadErr
  | invalidCell (raw : String) (row col : Nat) (colname dtype : String)
  | rowShape (rownum ncols : Nat)
  | keyError (dtype : String)
  | permissionDenied
  | apiError
  | invalidDatatype (dtype : String)
  | missingColumn (i : Nat)
deriving DecidableEq

/-! ## The CKAN call wrapper (`ckan`, lines 30-86) -/

/-- The error handler passed to `ckan` by `upload_resource_records` for the
delete action: absorb the error iff `err["__type"] == "Not Found Error"`. -/
def notFoundHandler (p : ErrPayload) : Bool :=
  p.typeName = "Not Found Error"

/-- The classified error `ckan` raises for a failed call: `UserError`
("Permission denied...") on HTTP 403, `UnhandledError` otherwise. -/
def ckanFail (code : Nat) : LoadErr :=
  if code = 403 then .permissionDenied else .apiError

/-- The `ckan` action wrapper: a 200 response succeeds; otherwise, if the body
decodes and an error handler is supplied and returns true on the error
payload, the error is silently absorbed (`None` result, modelled `.ok ()`);
otherwise the classified error is raised. -/
def ckan (r : HttpResponse) (handler : Option (ErrPayload → Bool)) : Except LoadErr Unit :=
  if r.code = 200 then .ok ()
  else
    match r.errorPayload, handler with
    | some p, some h => if h p then .ok () else .error (ckanFail r.code)
    | some _, none => .error (ckanFail r.code)
    | none, _ => .error (ckanFail r.code)

/-! ## Cell and row conversion (`format_value` lines 393-420,
`format_record` lines 424-436) -/

/-- The `datastore_messytable_type_mapping` lookup (lines 405-411): the cell
converter for a datastore type string, or `none` when the type has no entry
(in which case the Python code crashes with `KeyError`). The `timestamp`
converter (messytables `DateType.cast`) is external; it is a parameter
`dateCast` of the model. -/
def converterFor (dateCast : String → Option PyVal) (datatype : String) :
    Option (String → Option PyVal) :=
  if datatype = "text" then some (fun s => some (.str s))
  else if datatype = "int" then some (fun s => (parseInt s).map .intv)
  else if datatype = "float" then some (fun s => (parseFloat s).map .num)
  else if datatype = "numeric" then some (fun s => (parseFloat s).map .num)
  else if datatype = "timestamp" then some dateCast
  else none

/-- `format_value(cellvalue, datatype, rownum, colnum, colname)`: empty or
whitespace-only cells of non-text columns become db NULL; otherwise the
type's converter is looked up (`KeyError` if absent) and applied, a cast
failure raising the `UserError` whose message names the value, the 1-based
row and column numbers, the column name and the type. -/
def format_value (dateCast : String → Option PyVal) (cellvalue datatype : String)
    (rownum colnum : Nat) (colname : String) : Except LoadErr PyVal :=
  if pyStrip cellvalue = "" ∧ datatype ≠ "text" then .ok .null
  else
    match converterFor dateCast datatype with
    | none => .error (.keyError datatype)
    | some cast => match cast cellvalue with
      | some v => .ok v
      | none => .error (.invalidCell cellvalue (rownum + 1) (colnum + 1) colname datatype)

/-- The loop body of `format_record`: convert the cells of one row
positionally against the column list, starting at column index `colnum`. -/
def format_cells (dateCast : String → Option PyVal) (rownum : Nat) :
    List Column → List String → Nat → Except LoadErr DsRecord
  | c :: cs, v :: vs, colnum =>
      match format_value dateCast v c.type rownum colnum c.name with
      | .error e => .error e
      | .ok x =>
          match format_cells dateCast rownum cs vs (colnum + 1) with
          | .error e => .error e
          | .ok r => .ok ((c.name, x) :: r)
  | _, _, _ => .ok []

/-- `format_record(rownum, row, columns)`: raise `RowShapeError` ("Row %d does
not have %d columns", with the 0-based row number and the column count) when
the cell count disagrees with the column count, else convert cell by cell. -/
def format_record (dateCast : String → Option PyVal) (rownum : Nat)
    (row : List String) (cols : List Column) : Except LoadErr DsRecord :=
  if cols.length ≠ row.length then .error (.rowShape rownum cols.length)
  else format_cells dateCast rownum cols row 0

/-! ## Batching (`chunky`, lines 380-388) and the upload loop (lines 447-464) -/

/-- Structural loop of `chunky`: the fuel only bounds the number of chunks
produced (each chunk consumes at least one element when `0 < n`, so
`l.length` fuel is always enough; the fuel-exhausted case is unreachable
then). -/
def chunkyGo {α : Type} : Nat → List α → Nat → List (List α)
  | _, [], _ => []
  | 0, l, _ => [l]
  | fuel + 1, a :: t, n =>
      if n = 0 then [a :: t]
      else (a :: t).take n :: chunkyGo fuel ((a :: t).drop n) n

/-- `chunky(iterable, n)`: group a sequence into chunks of `n`, the last
(nonempty) chunk possibly smaller. -/
def chunky {α : Type} (l : List α) (n : Nat) : List (List α) :=
  chunkyGo l.length l n

/-- The inner loop of the upload procedure: build the payload for one chunk,
converting each row in order (emitting a `convert` event as each row's
conversion begins) and stopping at the first conversion error. -/
def buildPayload (dateCast : String → Option PyVal) (cols : List Column) :
    Nat → List (List String) → List Event × Except LoadErr (List DsRecord)
  | _, [] => ([], .ok [])
  | rownum, row :: rest =>
      match format_record dateCast rownum row cols with
      | .error e => ([.convert rownum], .error e)
      | .ok r0 =>
          (.convert rownum :: (buildPayload dateCast cols (rownum + 1) rest).1,
           (buildPayload dateCast cols (rownum + 1) rest).2.map (r0 :: ·))

/-- The chunk loop of `upload_resource_records`: for each chunk, build its
payload, then issue one `datastore_upsert` insert call; stop at the first
error (a conversion error is raised before the chunk's call is issued). -/
def uploadChunks (dateCast : String → Option PyVal) (resp : DsAction → HttpResponse)
    (rid : String) (cols : List Column) :
    Nat → List (List (List String)) → List Event × Option LoadErr
  | _, [] => ([], none)
  | rownum, chunk :: rest =>
      match buildPayload dateCast cols rownum chunk with
      | (evs, .error e) => (evs, some e)
      | (evs, .ok payload) =>
          match ckan (resp (DsAction.insert rid payload)) none with
          | .error e => (evs ++ [.call (.insert rid payload)], some e)
          | .ok _ =>
              (evs ++ .call (.insert rid payload) ::
                  (uploadChunks dateCast resp rid cols (rownum + chunk.length) rest).1,
               (uploadChunks dateCast resp rid cols (rownum + chunk.length) rest).2)

/-- Steps 2-4 of `upload_resource_records`: issue the `datastore_create` call
(fields in column order), then chunk the rows by 1024 and upload each chunk. -/
def createAndInsert (dateCast : String → Option PyVal) (resp : DsAction → HttpResponse)
    (rid : String) (cols : List Column) (rows : List (List String)) :
    List Event × Option LoadErr :=
  match ckan (resp (DsAction.create rid cols)) none with
  | .error e => ([.call (.create rid cols)], some e)
  | .ok _ =>
      (.call (.create rid cols) :: (uploadChunks dateCast resp rid cols 0 (chunky rows 1024)).1,
       (uploadChunks dateCast resp rid cols 0 (chunky rows 1024)).2)

/-- `upload_resource_records(resource, schema, recorditer)`: first issue
`datastore_delete` with the not-found-absorbing error handler, then create
the table and insert the rows in chunks of 1024. -/
def upload_resource_records (dateCast : String → Option PyVal)
    (resp : DsAction → HttpResponse) (rid : String) (cols : List Column)
    (rows : List (List String)) : List Event × Option LoadErr :=
  match ckan (resp (DsAction.delete rid)) (some notFoundHandler) with
  | .error e => ([.call (.delete rid)], some e)
  | .ok _ =>
      (.call (.delete rid) :: (createAndInsert dateCast resp rid cols rows).1,
       (createAndInsert dateCast resp rid cols rows).2)

/-! ## Resolver slices from `parse_resource` -/

/-- Lines 253-259 of `parse_resource`: resolve the header presence/offset
(user-supplied value from the schema, guessed offset as the default for the
offset, `True` as the default for presence), then record header information
back into the schema. The first component is the resolved
`(has_headers, offset)` pair; the second is the `(present, offset)` pair the
code writes back into the schema. Note the code writes the literal `True`
for `present`, not the resolved `has_headers`. -/
def resolveHeaderInfo (userPresent : Option Bool) (userOffset : Option Nat)
    (guessedOffset : Nat) : (Bool × Nat) × (Bool × Nat) :=
  let has_headers := userPresent.getD true
  let offset := userOffset.getD guessedOffset
  ((has_headers, offset), (true, offset))

/-- The datastore type vocabulary accepted by the validation loop
(line 347). -/
def allowedDatatypes : List String :=
  ["text", "int", "float", "bool", "numeric", "date", "time", "timestamp", "json"]

/-- Lines 346-348: validate that every resolved datatype is in the allowed
vocabulary, raising `InvalidSchema` ("Invalid data type in schema") at the
first offender. -/
def validate_datatypes : List String → Except LoadErr Unit
  | [] => .ok ()
  | dt :: rest =>
      if dt ∈ allowedDatatypes then validate_datatypes rest
      else .error (.invalidDatatype dt)

/-- The integer keys of the `schema["columns"]` mapping (modelled as an
association list from column index to column info). -/
def columnKeys (d : List (Nat × Column)) : List Nat := d.map (·.1)

/-- Python's `max(schema["columns"])`: the largest key (the source only
reaches this line with a nonempty mapping). -/
def maxKey (d : List (Nat × Column)) : Nat := (columnKeys d).foldl max 0

/-- The loop body of the completeness check: scan the given indices in order
and raise at the first one missing from the mapping. -/
def checkCompleteFrom (d : List (Nat × Column)) : List Nat → Except LoadErr Unit
  | [] => .ok ()
  | i :: rest =>
      if i ∈ columnKeys d then checkCompleteFrom d rest
      else .error (.missingColumn i)

/-- Lines 350-353: raise `InvalidSchema` ("The schema is missing information
for column %d") if any index in `[0, max(columns)]` has no `columns` entry. -/
def checkComplete (d : List (Nat × Column)) : Except LoadErr Unit :=
  checkCompleteFrom d (List.range (maxKey d + 1))

/-- Lines 440-442: flatten `sorted(schema["columns"].items())` into the
ordered column list (for a complete mapping this enumerates the values in
key order). -/
def sortedColumns (d : List (Nat × Column)) : List Column :=
  (List.range (maxKey d + 1)).filterMap fun i =>
    (d.find? (fun p => p.1 == i)).map (·.2)

/-- The tail of the resolution-then-upload flow relevant to the completeness
claim: the datatype validation and completeness check run inside
`parse_resource` (which issues no remote call), and only afterwards does
`upload_resource_records` start issuing remote actions. -/
def resolveAndUpload (dateCast : String → Option PyVal)
    (resp : DsAction → HttpResponse) (rid : String) (datatypes : List String)
    (colsDict : List (Nat × Column)) (rows : List (List String)) :
    List Event × Option LoadErr :=
  match validate_datatypes datatypes with
  | .error e => ([], some e)
  | .ok _ =>
      match checkComplete colsDict with
      | .error e => ([], some e)
      | .ok _ => upload_resource_records dateCast resp rid (sortedColumns colsDict) rows

/-! ## Header-name normalization (`parse_resource` lines 271-299)

The per-header cleanup (lowercase/trim, NFKD-decompose and drop combining
marks, underscore-prefix, strip invalid characters) is in the source; the
final `headers_make_unique(headers, max_length=24)` is external messytables
code and is modelled from the spec. The Unicode operations `.lower()` and
NFKD decomposition come from external libraries, so they are parameters
`lower : Char → Char` and `fold : Char → List Char` (the decomposition of one
character with its combining marks dropped); theorems quantify over them or
constrain them only on ASCII, where their behavior is fixed. -/

/-- Lowercase ASCII letter (codes 97-122, `a`-`z`). -/
def isLowerAlpha (c : Char) : Bool := 97 ≤ c.toNat && c.toNat ≤ 122

/-- ASCII decimal digit (codes 48-57, `0`-`9`). -/
def isDigitChar (c : Char) : Bool := 48 ≤ c.toNat && c.toNat ≤ 57

/-- A character allowed in first position by `re.match("^[a-z_]", ...)`. -/
def isValidFirst (c : Char) : Bool := isLowerAlpha c || c = '_'

/-- A character kept by `re.sub("[^a-z0-9_]", "", ...)`. -/
def isValidChar (c : Char) : Bool := isLowerAlpha c || isDigitChar c || c = '_'

/-- The underscore-prefix step (lines 283-285): prepend `_` when the first
character is not `[a-z_]` (also when the string is empty: `re.match` fails
on `""`). -/
def fixFirstChar : List Char → List Char
  | [] => ['_']
  | c :: rest => if isValidFirst c then c :: rest else '_' :: c :: rest

/-- Lines 271-291: per-header normalization. Lowercase and trim; decompose
each character and drop combining marks; prepend `_` when the first character
is not `[a-z_]`; remove every character outside `[a-z0-9_]`. -/
def normalize_header (lower : Char → Char) (fold : Char → List Char)
    (h : String) : List Char :=
  (fixFirstChar ((pyStripChars (h.data.map lower)).map fold).flatten).filter isValidChar

/-- Decimal digit characters of a natural number (most significant first). -/
def natDigits (n : Nat) : List Char :=
  ((Nat.digits 10 n).map Nat.digitChar).reverse

/-- Modelled from the spec: the candidate name tried for disambiguating
counter `c` — the base name truncated so that, with the counter's digits
appended, the length cap is respected. -/
def suffixCandidate (base : List Char) (maxLen c : Nat) : List Char :=
  base.take (maxLen - (natDigits c).length) ++ natDigits c

/-- Modelled from the spec: search increasing counters `c, c+1, ...` (with
the given fuel) for the first suffixed candidate not already taken. -/
def searchSuffix (taken : List (List Char)) (base : List Char) (maxLen : Nat) :
    Nat → Nat → Option (List Char)
  | 0, _ => none
  | fuel + 1, c =>
      if suffixCandidate base maxLen c ∈ taken then
        searchSuffix taken base maxLen fuel (c + 1)
      else some (suffixCandidate base maxLen c)

/-- Modelled from the spec: pick the name for one header given the names
already taken — the truncated base if free, else the first free
counter-suffixed candidate (the fuel bounds the search; it is large enough
that for any feasible header count a free candidate is found). -/
def pickName (taken : List (List Char)) (base : List Char) (maxLen : Nat) :
    List Char :=
  if base.take maxLen ∈ taken then
    match searchSuffix taken base maxLen (100 * (taken.length + 1)) 1 with
    | some cand => cand
    | none => base.take maxLen
  else base.take maxLen

/-- Left-to-right loop of the de-duplication, accumulating chosen names in
reverse. -/
def makeUniqueAux (maxLen : Nat) (acc : List (List Char)) :
    List (List Char) → List (List Char)
  | [] => acc.reverse
  | b :: bs => makeUniqueAux maxLen (pickName acc b maxLen :: acc) bs

/-- Modelled from the spec: messytables' `headers_make_unique(headers,
max_length)` — de-duplicate across the full header list and truncate each
name to the cap, resolving collisions left to right by suffixing a
disambiguating counter while still respecting the cap. -/
def headers_make_unique (hs : List (List Char)) (maxLength : Nat) :
    List (List Char) :=
  makeUniqueAux maxLength [] hs

/-- The full column-name normalization of the resolver (lines 271-299):
per-header cleanup followed by `headers_make_unique(headers, max_length=24)`. -/
def resolve_headers (lower : Char → Char) (fold : Char → List Char)
    (hs : List String) : List (List Char) :=
  headers_make_unique (hs.map (normalize_header lower fold)) 24

/-- A name matches `^[a-z_][a-z0-9_]*$`. -/
def matchesColumnRegex : List Char → Bool
  | [] => false
  | c :: cs => isValidFirst c && cs.all isValidChar

/-- Modelled from the spec: Python's `unicode.lower()` restricted to ASCII,
where it maps `A-Z` (codes 65-90) to `a-z` and fixes everything else. -/
def pyLowerAscii (c : Char) : Char :=
  if 65 ≤ c.toNat && c.toNat ≤ 90 then Char.ofNat (c.toNat + 32) else c

/-- Modelled from the spec: NFKD decomposition with combining marks dropped,
restricted to ASCII, where it fixes every character. -/
def nfkdAscii (c : Char) : List Char := [c]

/-- Base-128 encoding of a character list (used to count the normalized
names: every valid column name has characters with codes in `[1, 128)`, so
the encoding is injective on valid names and bounded by `128 ^ length`). -/
def encodeName : List Char → Nat
  | [] => 0
  | c :: cs => c.toNat + 128 * encodeName cs

/-! ## Derived observations of a pipeline run -/

/-- The records of each insert call in an event list, in order. -/
def insertRecords : List Event → List (List DsRecord)
  | [] => []
  | .call (.insert _ recs) :: t => recs :: insertRecords t
  | _ :: t => insertRecords t

/-- The number of insert calls in an event list. -/
def countInserts (evs : List Event) : Nat := (insertRecords evs).length

/-- A remote that answers every call with HTTP 200. -/
def respAllOk : DsAction → HttpResponse := fun _ => ⟨200, none⟩

/-- The conversion events for `m` consecutive rows starting at row number
`r`. -/
def convertEvents (r m : Nat) : List Event :=
  (List.range m).map (fun k => .convert (r + k))

/-- The expected event trace of the chunk loop on a list of per-chunk
payloads starting at row number `r`: each chunk's row conversions followed
by its single insert call. -/
def chunkEvents (rid : String) : Nat → List (List DsRecord) → List Event
  | _, [] => []
  | r, p :: ps =>
      convertEvents r p.length
        ++ .call (.insert rid p) :: chunkEvents rid (r + p.length) ps

/-- Whether an event is an insert call whose records include the given
record. -/
def insertsRecord (r0 : DsRecord) : Event → Bool
  | .call (.insert _ recs) => recs.any (fun r => r = r0)
  | _ => false

/-- The row numbers of the conversion events of a trace, in trace order. -/
def convertNums : List Event → List Nat :=
  List.filterMap (fun e => match e with | .convert n => some n | _ => none)

/-- The trace of a two-row upload against an all-OK remote (the claimed
interleaving of conversion and submission is examined on it). -/
def twoRowTrace : List Event :=
  (upload_resource_records (fun _ => none) respAllOk "r" [⟨"a", "text"⟩]
    [["x"], ["y"]]).1

/-! ## Theorems -/

/-- C1: for a single column named "amount" of type "numeric", the upload
pipeline converts the cell "3.14" to the record `{"amount": 3.14}`; converts
an empty and a whitespace-only cell to `{"amount": null}`; and for the cell
"abc" raises `InvalidCellValue` carrying the 1-based row number 1, the
1-based column number 1, the column name "amount", the raw value "abc" and
the target type "numeric" (and submits no insert call). -/
theorem c1_numeric_cell_conversion (dateCast : String → Option PyVal) :
    upload_resource_records dateCast respAllOk "r" [⟨"amount", "numeric"⟩] [["3.14"]]
      = ([.call (.delete "r"), .call (.create "r" [⟨"amount", "numeric"⟩]), .convert 0,
          .call (.insert "r" [[("amount", .num (3.14 : Rat))]])], none)
    ∧ upload_resource_records dateCast respAllOk "r" [⟨"amount", "numeric"⟩] [[""]]
      = ([.call (.delete "r"), .call (.create "r" [⟨"amount", "numeric"⟩]), .convert 0,
          .call (.insert "r" [[("amount", .null)]])], none)
    ∧ upload_resource_records dateCast respAllOk "r" [⟨"amount", "numeric"⟩] [[" "]]
      = ([.call (.delete "r"), .call (.create "r" [⟨"amount", "numeric"⟩]), .convert 0,
          .call (.insert "r" [[("amount", .null)]])], none)
    ∧ upload_resource_records dateCast respAllOk "r" [⟨"amount", "numeric"⟩] [["abc"]]
      = ([.call (.delete "r"), .call (.create "r" [⟨"amount", "numeric"⟩]), .convert 0],
         some (.invalidCell "abc" 1 1 "amount" "numeric")) := by
  have h : (3.14 : Rat) = ((314 : Nat) : Rat) / ((100 : Nat) : Rat) := by norm_num
  refine ⟨?_, ?_, ?_, ?_⟩
  · rw [h]
    rfl
  · rfl
  · rfl
  · rfl

/-- C6 (code bug): the resolver reads the user-supplied `header.present`
into `has_headers` (resolving it to `false` when the user supplies `false`)
but then records the literal `True` back into the schema, so the recorded
`header.present` differs from the resolved value. -/
theorem c6_header_present_not_recorded :
    (resolveHeaderInfo (some false) none 0).1.1 = false
    ∧ (resolveHeaderInfo (some false) none 0).2.1 = true
    ∧ (resolveHeaderInfo (some false) none 0).2.1
        ≠ (resolveHeaderInfo (some false) none 0).1.1 := by
  refine ⟨rfl, rfl, by decide⟩

/-- C7: a schema whose columns mapping is `{0: c0, 2: c2}` (index 1 missing)
makes the resolution fail with `InvalidSchema` naming the missing column 1,
and no remote datastore action (delete, create or insert) is issued. -/
theorem c7_missing_column_before_any_call (dateCast : String → Option PyVal)
    (resp : DsAction → HttpResponse) (rid : String) (c0 c2 : Column)
    (rows : List (List String)) (hty : c0.type ∈ allowedDatatypes) :
    resolveAndUpload dateCast resp rid [c0.type] [(0, c0), (2, c2)] rows
      = ([], some (.missingColumn 1)) := by
  have hv : validate_datatypes [c0.type] = .ok () := by
    unfold validate_datatypes
    rw [if_pos hty]
    rfl
  have hcc : checkComplete [(0, c0), (2, c2)] = .error (.missingColumn 1) := rfl
  unfold resolveAndUpload
  rw [hv, hcc]

/-- Witness for C7 at a concrete schema. -/
theorem c7_missing_column_before_any_call_witness :
    resolveAndUpload (fun _ => none) respAllOk "res" ["text"]
        [(0, ⟨"a", "text"⟩), (2, ⟨"b", "text"⟩)] [["x"]]
      = ([], some (.missingColumn 1)) :=
  c7_missing_column_before_any_call (fun _ => none) respAllOk "res"
    ⟨"a", "text"⟩ ⟨"b", "text"⟩ [["x"]] (by decide)

/-- C10: the types "bool", "date", "time" and "json" are all accepted by the
resolver's datatype validation, yet for a cell whose stripped value is
non-empty, `format_value` on such a type crashes with an unclassified
`KeyError` from the converter-lookup mapping, not a user-correctable
`InvalidCellValue` or `InvalidSchema` error. -/
theorem c10_unconvertible_types_crash (dateCast : String → Option PyVal)
    (dt : String) (hdt : dt ∈ (["bool", "date", "time", "json"] : List String)) :
    dt ∈ allowedDatatypes
    ∧ ∀ (v : String) (rownum colnum : Nat) (colname : String), pyStrip v ≠ "" →
        format_value dateCast v dt rownum colnum colname = .error (.keyError dt) := by
  have main : ∀ dt, dt ∈ (["bool", "date", "time", "json"] : List String) →
      converterFor dateCast dt = none := by
    intro dt hdt
    simp only [List.mem_cons, List.not_mem_nil, or_false] at hdt
    rcases hdt with h | h | h | h <;> subst h <;> rfl
  constructor
  · simp only [List.mem_cons, List.not_mem_nil, or_false] at hdt
    rcases hdt with h | h | h | h <;> subst h <;> decide
  · intro v rownum colnum colname hv
    have hne : ¬(pyStrip v = "" ∧ dt ≠ "text") := fun h => hv h.1
    unfold format_value
    rw [if_neg hne, main dt hdt]

/-- Witness for C10 at the type "bool" and the cell "x". -/
theorem c10_unconvertible_types_crash_witness :
    "bool" ∈ allowedDatatypes
    ∧ format_value (fun _ => none) "x" "bool" 0 0 "c" = .error (.keyError "bool") := by
  have h := c10_unconvertible_types_crash (fun _ => none) "bool" (by decide)
  exact ⟨h.1, h.2 "x" 0 0 "c" (by decide)⟩

/-- C4: when the delete-table call fails (non-200) and its error payload is
classified as "Not Found Error", the error is absorbed and the pipeline
proceeds to the create-table phase (whose first issued action is the create
call); when the delete-table call fails with any other error, the classified
error propagates and no further action — in particular no create — is
issued. -/
theorem c4_delete_not_found_absorbed (dateCast : String → Option PyVal)
    (resp : DsAction → HttpResponse) (rid : String) (cols : List Column)
    (rows : List (List String)) :
    (∀ p, (resp (DsAction.delete rid)).code ≠ 200 →
      (resp (DsAction.delete rid)).errorPayload = some p →
      p.typeName = "Not Found Error" →
      upload_resource_records dateCast resp rid cols rows
        = (Event.call (DsAction.delete rid) :: (createAndInsert dateCast resp rid cols rows).1,
           (createAndInsert dateCast resp rid cols rows).2)
      ∧ (createAndInsert dateCast resp rid cols rows).1.head?
          = some (.call (.create rid cols)))
    ∧ ((resp (DsAction.delete rid)).code ≠ 200 →
       (∀ p, (resp (DsAction.delete rid)).errorPayload = some p →
          p.typeName ≠ "Not Found Error") →
       upload_resource_records dateCast resp rid cols rows
         = ([Event.call (DsAction.delete rid)],
            some (ckanFail (resp (DsAction.delete rid)).code))) := by
  constructor
  · intro p hcode hp hnf
    have habs : ckan (resp (DsAction.delete rid)) (some notFoundHandler) = .ok () := by
      unfold ckan
      rw [if_neg hcode, hp]
      simp [notFoundHandler, hnf]
    constructor
    · unfold upload_resource_records
      rw [habs]
    · unfold createAndInsert
      cases h : ckan (resp (DsAction.create rid cols)) none <;> simp
  · intro hcode hother
    have herr : ckan (resp (DsAction.delete rid)) (some notFoundHandler)
        = .error (ckanFail (resp (DsAction.delete rid)).code) := by
      unfold ckan
      rw [if_neg hcode]
      cases hp : (resp (DsAction.delete rid)).errorPayload with
      | none => rfl
      | some p =>
          have := hother p hp
          simp [notFoundHandler, this]
    unfold upload_resource_records
    rw [herr]

/-- Witness for C4: a concrete not-found delete failure is absorbed (the
create call is still issued), and a concrete other delete failure propagates
with no create call. -/
theorem c4_delete_not_found_absorbed_witness :
    (upload_resource_records (fun _ => none)
        (fun a => match a with
          | .delete _ => ⟨409, some ⟨"Not Found Error"⟩⟩
          | _ => ⟨200, none⟩) "r" [⟨"a", "text"⟩] []).1.head?
      = some (.call (.delete "r"))
    ∧ (upload_resource_records (fun _ => none)
        (fun a => match a with
          | .delete _ => ⟨409, some ⟨"Not Found Error"⟩⟩
          | _ => ⟨200, none⟩) "r" [⟨"a", "text"⟩] []).1.tail.head?
      = some (.call (.create "r" [⟨"a", "text"⟩]))
    ∧ upload_resource_records (fun _ => none)
        (fun a => match a with
          | .delete _ => ⟨409, some ⟨"Validation Error"⟩⟩
          | _ => ⟨200, none⟩) "r" [⟨"a", "text"⟩] []
      = ([Event.call (DsAction.delete "r")], some LoadErr.apiError) := by
  refine ⟨?_, ?_, ?_⟩
  · have h := (c4_delete_not_found_absorbed (fun _ => none)
      (fun a => match a with
        | .delete _ => ⟨409, some ⟨"Not Found Error"⟩⟩
        | _ => ⟨200, none⟩) "r" [⟨"a", "text"⟩] []).1
      ⟨"Not Found Error"⟩ (by decide) rfl rfl
    rw [h.1]
    rfl
  · have h := (c4_delete_not_found_absorbed (fun _ => none)
      (fun a => match a with
        | .delete _ => ⟨409, some ⟨"Not Found Error"⟩⟩
        | _ => ⟨200, none⟩) "r" [⟨"a", "text"⟩] []).1
      ⟨"Not Found Error"⟩ (by decide) rfl rfl
    rw [h.1]
    simpa using h.2
  · have h := (c4_delete_not_found_absorbed (fun _ => none)
      (fun a => match a with
        | .delete _ => ⟨409, some ⟨"Validation Error"⟩⟩
        | _ => ⟨200, none⟩) "r" [⟨"a", "text"⟩] []).2
      (by decide) ?_
    · simpa using h
    · intro p hp
      have : p = ⟨"Validation Error"⟩ := by
        simpa using hp.symm
      subst this
      decide

/-! ### Lemmas about `chunky` -/

theorem chunkyGo_nil {α : Type} (fuel n : Nat) : chunkyGo fuel ([] : List α) n = [] := by
  cases fuel <;> rfl

theorem chunkyGo_congr {α : Type} :
    ∀ (f1 f2 : Nat) (l : List α) (n : Nat), l.length ≤ f1 → l.length ≤ f2 → 0 < n →
      chunkyGo f1 l n = chunkyGo f2 l n := by
  intro f1
  induction f1 with
  | zero =>
      intro f2 l n h1 _ _
      have : l = [] := List.length_eq_zero.mp (Nat.le_zero.mp h1)
      subst this
      rw [chunkyGo_nil, chunkyGo_nil]
  | succ g ih =>
      intro f2 l n h1 h2 hn
      cases l with
      | nil => rw [chunkyGo_nil, chunkyGo_nil]
      | cons a t =>
          cases f2 with
          | zero => simp at h2
          | succ g2 =>
              show chunkyGo (g + 1) (a :: t) n = chunkyGo (g2 + 1) (a :: t) n
              unfold chunkyGo
              rw [if_neg (Nat.pos_iff_ne_zero.mp hn), if_neg (Nat.pos_iff_ne_zero.mp hn)]
              congr 1
              apply ih g2
              · simp only [List.length_drop, List.length_cons]
                simp only [List.length_cons] at h1
                omega
              · simp only [List.length_drop, List.length_cons]
                simp only [List.length_cons] at h2
                omega
              · exact hn

theorem chunky_nil {α : Type} (n : Nat) : chunky ([] : List α) n = [] := rfl

theorem chunky_cons_eq {α : Type} (l : List α) (n : Nat) (hl : l ≠ []) (hn : 0 < n) :
    chunky l n = l.take n :: chunky (l.drop n) n := by
  cases l with
  | nil => exact absurd rfl hl
  | cons a t =>
      show chunkyGo (t.length + 1) (a :: t) n = _
      unfold chunkyGo
      rw [if_neg (Nat.pos_iff_ne_zero.mp hn)]
      congr 1
      apply chunkyGo_congr
      · simp only [List.length_drop, List.length_cons]
        omega
      · exact le_refl _
      · exact hn

theorem chunky_append {α : Type} (a b : List α) (n : Nat) (ha : a.length = n)
    (hn : 0 < n) : chunky (a ++ b) n = a :: chunky b n := by
  have hane : a ≠ [] := by
    intro h
    subst h
    simp at ha
    omega
  rw [chunky_cons_eq (a ++ b) n (by simp [hane]) hn]
  subst ha
  rw [List.take_left, List.drop_left]

theorem chunky_of_le {α : Type} (l : List α) (n : Nat) (hne : l ≠ [])
    (hl : l.length ≤ n) (hn : 0 < n) : chunky l n = [l] := by
  rw [chunky_cons_eq l n hne hn, List.take_of_length_le hl, List.drop_eq_nil_of_le hl,
    chunky_nil]

theorem chunky_flatten {α : Type} (n : Nat) (hn : 0 < n) :
    ∀ (fuel : Nat) (l : List α), l.length ≤ fuel → (chunky l n).flatten = l := by
  intro fuel
  induction fuel with
  | zero =>
      intro l hl
      have : l = [] := List.length_eq_zero.mp (Nat.le_zero.mp hl)
      subst this
      rfl
  | succ f ih =>
      intro l hl
      by_cases hne : l = []
      · subst hne; rfl
      · rw [chunky_cons_eq l n hne hn]
        simp only [List.flatten_cons]
        rw [ih (l.drop n) ?_, List.take_append_drop]
        simp only [List.length_drop]
        have : 0 < l.length := List.length_pos.mpr hne
        omega

/-! ### Lemmas about event traces -/

theorem convertEvents_succ (r m : Nat) :
    convertEvents r (m + 1) = .convert r :: convertEvents (r + 1) m := by
  simp only [convertEvents, List.range_succ_eq_map, List.map_cons, List.map_map,
    Nat.add_zero]
  congr 1
  apply List.map_congr_left
  intro k _
  simp only [Function.comp_apply]
  congr 1
  omega

theorem insertRecords_append (xs ys : List Event) :
    insertRecords (xs ++ ys) = insertRecords xs ++ insertRecords ys := by
  induction xs with
  | nil => rfl
  | cons e t ih =>
      cases e with
      | convert n => simpa [insertRecords] using ih
      | call a => cases a <;> simp [insertRecords, ih]

theorem insertRecords_convertEvents (r m : Nat) :
    insertRecords (convertEvents r m) = [] := by
  induction m generalizing r with
  | zero => rfl
  | succ k ih =>
      rw [convertEvents_succ]
      simpa [insertRecords] using ih (r + 1)

theorem insertRecords_chunkEvents (rid : String) :
    ∀ (ps : List (List DsRecord)) (r : Nat), insertRecords (chunkEvents rid r ps) = ps := by
  intro ps
  induction ps with
  | nil => intro r; rfl
  | cons p t ih =>
      intro r
      simp only [chunkEvents, insertRecords_append, insertRecords_convertEvents,
        List.nil_append]
      simpa [insertRecords] using ih (r + p.length)

theorem convertNums_append (xs ys : List Event) :
    convertNums (xs ++ ys) = convertNums xs ++ convertNums ys :=
  List.filterMap_append xs ys _

theorem convertNums_convertEvents (r m : Nat) :
    convertNums (convertEvents r m) = List.range' r m := by
  induction m generalizing r with
  | zero => rfl
  | succ k ih =>
      rw [convertEvents_succ, List.range'_succ]
      simpa [convertNums] using ih (r + 1)

theorem convertNums_chunkEvents (rid : String) :
    ∀ (ps : List (List DsRecord)) (r : Nat),
      convertNums (chunkEvents rid r ps) = List.range' r (ps.map List.length).sum := by
  intro ps
  induction ps with
  | nil => intro r; rfl
  | cons p t ih =>
      intro r
      simp only [chunkEvents, convertNums_append, convertNums_convertEvents]
      have h1 : convertNums (Event.call (DsAction.insert rid p) :: chunkEvents rid (r + p.length) t)
          = convertNums (chunkEvents rid (r + p.length) t) := rfl
      rw [h1, ih (r + p.length)]
      have := List.range'_append r p.length (t.map List.length).sum 1
      simp only [Nat.one_mul] at this
      rw [this]
      simp [Nat.add_comm]

/-! ### Lemmas about `buildPayload` -/

theorem buildPayload_ok_shape (dc : String → Option PyVal) (cols : List Column) :
    ∀ (l : List (List String)) (r : Nat) (p : List DsRecord),
      (buildPayload dc cols r l).2 = .ok p →
      (buildPayload dc cols r l).1 = convertEvents r l.length ∧ p.length = l.length := by
  intro l
  induction l with
  | nil =>
      intro r p h
      simp only [buildPayload] at h
      cases h
      exact ⟨rfl, rfl⟩
  | cons row rest ih =>
      intro r p h
      simp only [buildPayload] at h ⊢
      cases hfr : format_record dc r row cols with
      | error e => rw [hfr] at h; simp at h
      | ok r0 =>
          rw [hfr] at h
          dsimp only at h ⊢
          cases hbp : (buildPayload dc cols (r + 1) rest).2 with
          | error e => rw [hbp] at h; simp [Except.map] at h
          | ok q =>
              rw [hbp] at h
              simp only [Except.map, Except.ok.injEq] at h
              obtain ⟨h1, h2⟩ := ih (r + 1) q hbp
              constructor
              · simp only [List.length_cons, convertEvents_succ]
                rw [h1]
              · rw [← h]
                simp [h2]

theorem buildPayload_append_ok (dc : String → Option PyVal) (cols : List Column) :
    ∀ (a b : List (List String)) (r : Nat) (recs : List DsRecord),
      (buildPayload dc cols r (a ++ b)).2 = .ok recs →
      ∃ pa pb, (buildPayload dc cols r a).2 = .ok pa
        ∧ (buildPayload dc cols (r + a.length) b).2 = .ok pb ∧ recs = pa ++ pb := by
  intro a
  induction a with
  | nil =>
      intro b r recs h
      exact ⟨[], recs, rfl, by simpa using h, rfl⟩
  | cons row rest ih =>
      intro b r recs h
      simp only [List.cons_append, buildPayload, List.append_eq] at h
      cases hfr : format_record dc r row cols with
      | error e => rw [hfr] at h; simp at h
      | ok r0 =>
          rw [hfr] at h
          dsimp only at h
          cases hbp : (buildPayload dc cols (r + 1) (rest ++ b)).2 with
          | error e => rw [hbp] at h; simp [Except.map] at h
          | ok q =>
              rw [hbp] at h
              simp only [Except.map, Except.ok.injEq] at h
              obtain ⟨pa, pb, h1, h2, h3⟩ := ih b (r + 1) q hbp
              refine ⟨r0 :: pa, pb, ?_, ?_, ?_⟩
              · simp only [buildPayload, hfr, h1, Except.map]
              · have harith : r + (row :: rest).length = r + 1 + rest.length := by
                  simp only [List.length_cons]
                  omega
                rw [harith]
                exact h2
              · rw [← h, h3]
                rfl

/-! ### The success-path trace of the upload pipeline -/

theorem ckan_ok_of_200 (resp : DsAction → HttpResponse) (a : DsAction)
    (handler : Option (ErrPayload → Bool)) (h : (resp a).code = 200) :
    ckan (resp a) handler = .ok () := by
  unfold ckan
  rw [if_pos h]

theorem uploadChunks_ok (dc : String → Option PyVal) (resp : DsAction → HttpResponse)
    (rid : String) (cols : List Column) (n : Nat) (hn : 0 < n)
    (hok : ∀ a, (resp a).code = 200) :
    ∀ (fuel : Nat) (l : List (List String)), l.length ≤ fuel →
      ∀ (r : Nat) (recs : List DsRecord),
      (buildPayload dc cols r l).2 = .ok recs →
      uploadChunks dc resp rid cols r (chunky l n)
        = (chunkEvents rid r (chunky recs n), none) := by
  intro fuel
  induction fuel with
  | zero =>
      intro l hl r recs h
      have hle : l = [] := List.length_eq_zero.mp (Nat.le_zero.mp hl)
      subst hle
      simp only [buildPayload] at h
      cases h
      rfl
  | succ f ih =>
      intro l hl r recs h
      by_cases hne : l = []
      · subst hne
        simp only [buildPayload] at h
        cases h
        rfl
      · rw [chunky_cons_eq l n hne hn]
        have hsplit : l.take n ++ l.drop n = l := List.take_append_drop n l
        rw [← hsplit] at h
        obtain ⟨pa, pb, hpa, hpb, hrecs⟩ :=
          buildPayload_append_ok dc cols (l.take n) (l.drop n) r recs h
        obtain ⟨hfst, hlen⟩ := buildPayload_ok_shape dc cols (l.take n) r pa hpa
        have hpair : buildPayload dc cols r (l.take n)
            = (convertEvents r (l.take n).length, Except.ok pa) := Prod.ext hfst hpa
        have hchunk : chunky recs n = pa :: chunky pb n := by
          rcases Nat.lt_or_ge l.length n with hlt | hge
          · have htake : l.take n = l := List.take_of_length_le (Nat.le_of_lt hlt)
            have hdrop : l.drop n = [] := List.drop_eq_nil_of_le (Nat.le_of_lt hlt)
            have hpb0 : pb = [] := by
              rw [hdrop] at hpb
              simp only [buildPayload] at hpb
              cases hpb
              rfl
            subst hpb0
            rw [hrecs, List.append_nil, chunky_nil]
            apply chunky_of_le
            · intro h0
              rw [h0] at hlen
              simp only [List.length_nil, htake] at hlen
              exact hne (List.length_eq_zero.mp hlen.symm)
            · rw [hlen, htake]
              exact Nat.le_of_lt hlt
            · exact hn
          · have htl : (l.take n).length = n := by
              rw [List.length_take]
              omega
            rw [hrecs]
            exact chunky_append pa pb n (by rw [hlen, htl]) hn
        rw [hchunk]
        simp only [chunkEvents]
        simp only [uploadChunks, hpair]
        rw [ckan_ok_of_200 resp _ none (hok _)]
        dsimp only
        rw [ih (l.drop n) ?_ (r + (l.take n).length) pb hpb]
        · dsimp only
          rw [hlen]
        · simp only [List.length_drop, List.length_take]
          have hl0 : 0 < l.length := List.length_pos.mpr hne
          omega

theorem upload_trace_ok (dc : String → Option PyVal) (resp : DsAction → HttpResponse)
    (rid : String) (cols : List Column) (rows : List (List String))
    (recs : List DsRecord) (hok : ∀ a, (resp a).code = 200)
    (hconv : (buildPayload dc cols 0 rows).2 = .ok recs) :
    upload_resource_records dc resp rid cols rows
      = (.call (.delete rid) :: .call (.create rid cols)
          :: chunkEvents rid 0 (chunky recs 1024), none) := by
  unfold upload_resource_records
  rw [ckan_ok_of_200 resp _ (some notFoundHandler) (hok _)]
  dsimp only
  unfold createAndInsert
  rw [ckan_ok_of_200 resp _ none (hok _)]
  dsimp only
  rw [uploadChunks_ok dc resp rid cols 1024 (by norm_num) hok rows.length rows
    (le_refl _) 0 recs hconv]

theorem buildPayload_text_replicate (dc : String → Option PyVal) :
    ∀ (n r : Nat),
      (buildPayload dc [⟨"a", "text"⟩] r (List.replicate n ["x"])).2
        = .ok (List.replicate n [("a", PyVal.str "x")]) := by
  intro n
  induction n with
  | zero => intro r; rfl
  | succ k ih =>
      intro r
      simp only [List.replicate_succ, buildPayload]
      have hfr : format_record dc r ["x"] [⟨"a", "text"⟩] = .ok [("a", PyVal.str "x")] := rfl
      rw [hfr]
      dsimp only
      rw [ih (r + 1)]
      rfl

/-- C2: the pipeline groups converted rows into batches of exactly 1024 in
source order, submitting each batch as one insert action: whenever the rows
convert to the record list `recs`, the insert calls carry exactly the chunks
of `recs` by 1024 in order; 2500 rows produce exactly 3 insert calls of
sizes 1024, 1024 and 452, in that order; an empty row sequence produces 0
insert calls while the delete and create actions are still issued. -/
theorem c2_batching (dc : String → Option PyVal) (resp : DsAction → HttpResponse)
    (rid : String) (cols : List Column) (rows : List (List String))
    (hok : ∀ a, (resp a).code = 200) :
    (∀ recs, (buildPayload dc cols 0 rows).2 = .ok recs →
      insertRecords (upload_resource_records dc resp rid cols rows).1 = chunky recs 1024
      ∧ (upload_resource_records dc resp rid cols rows).2 = none)
    ∧ (insertRecords (upload_resource_records dc resp rid [⟨"a", "text"⟩]
          (List.replicate 2500 ["x"])).1).map List.length = [1024, 1024, 452]
    ∧ upload_resource_records dc resp rid cols []
        = ([.call (.delete rid), .call (.create rid cols)], none) := by
  have hmain : ∀ (cols' : List Column) (rows' : List (List String)) recs,
      (buildPayload dc cols' 0 rows').2 = .ok recs →
      insertRecords (upload_resource_records dc resp rid cols' rows').1 = chunky recs 1024
      ∧ (upload_resource_records dc resp rid cols' rows').2 = none := by
    intro cols' rows' recs hconv
    rw [upload_trace_ok dc resp rid cols' rows' recs hok hconv]
    refine ⟨?_, rfl⟩
    simp only [insertRecords]
    exact insertRecords_chunkEvents rid (chunky recs 1024) 0
  refine ⟨hmain cols rows, ?_, ?_⟩
  · obtain ⟨h1, _⟩ := hmain [⟨"a", "text"⟩] (List.replicate 2500 ["x"])
      (List.replicate 2500 [("a", PyVal.str "x")]) (buildPayload_text_replicate dc 2500 0)
    rw [h1]
    have h2500 : (2500 : Nat) = 1024 + (1024 + 452) := by norm_num
    rw [h2500, List.replicate_add, List.replicate_add,
      chunky_append _ _ 1024 (List.length_replicate 1024 _) (by norm_num),
      chunky_append _ _ 1024 (List.length_replicate 1024 _) (by norm_num),
      chunky_of_le _ 1024 ?_ (by rw [List.length_replicate]; norm_num) (by norm_num)]
    · simp only [List.map_cons, List.map_nil, List.length_replicate]
    · intro hh
      have := congrArg List.length hh
      rw [List.length_replicate] at this
      simp at this
  · have := upload_trace_ok dc resp rid cols [] [] hok rfl
    rw [this]
    rfl

/-- Witness for C2: the general part at a one-row table, together with the
concrete 2500-row and empty-row instances. -/
theorem c2_batching_witness :
    (insertRecords (upload_resource_records (fun _ => none) respAllOk "r"
        [⟨"a", "text"⟩] [["x"]]).1 = chunky [[("a", PyVal.str "x")]] 1024
      ∧ (upload_resource_records (fun _ => none) respAllOk "r"
          [⟨"a", "text"⟩] [["x"]]).2 = none)
    ∧ (insertRecords (upload_resource_records (fun _ => none) respAllOk "r" [⟨"a", "text"⟩]
          (List.replicate 2500 ["x"])).1).map List.length = [1024, 1024, 452]
    ∧ upload_resource_records (fun _ => none) respAllOk "r" [⟨"a", "text"⟩] []
        = ([.call (.delete "r"), .call (.create "r" [⟨"a", "text"⟩])], none) := by
  have h := c2_batching (fun _ => none) respAllOk "r" [⟨"a", "text"⟩] [["x"]]
    (fun _ => rfl)
  exact ⟨h.1 [[("a", PyVal.str "x")]] rfl, h.2.1, h.2.2⟩

/-- C9 (counterexample): uploading two rows against an all-OK remote
produces the trace delete, create, convert row 0, convert row 1, insert of
both records — so the conversion of row 1 begins before the insert call
containing row 0 is submitted: there are no positions `p < q` in the trace
with an insert carrying row 0's record at `p` and the conversion of row 1 at
`q`. -/
theorem c9_counterexample_interleaving :
    twoRowTrace
      = [.call (.delete "r"), .call (.create "r" [⟨"a", "text"⟩]), .convert 0, .convert 1,
         .call (.insert "r" [[("a", .str "x")], [("a", .str "y")]])]
    ∧ (∃ q : Fin 5, twoRowTrace.getD q.val (.convert 99) = .convert 1)
    ∧ (∃ p : Fin 5, insertsRecord [("a", PyVal.str "x")]
        (twoRowTrace.getD p.val (.convert 99)) = true)
    ∧ ¬ ∃ p q : Fin 5, p.val < q.val
        ∧ insertsRecord [("a", PyVal.str "x")] (twoRowTrace.getD p.val (.convert 99)) = true
        ∧ twoRowTrace.getD q.val (.convert 99) = .convert 1 := by
  refine ⟨rfl, ?_, ?_, ?_⟩ <;> decide

/-- C9 (amended): rows are converted strictly in source order (the row
numbers of the conversion events are exactly 0, 1, 2, ... in trace order),
and each batch's single insert call is submitted after the conversions of
exactly that batch's rows and before any row of a later batch is converted:
on the success path the trace is precisely delete, create, then for each
1024-chunk its conversions followed by its insert. -/
theorem c9_amended_sequential_batches (dc : String → Option PyVal)
    (resp : DsAction → HttpResponse) (rid : String) (cols : List Column)
    (rows : List (List String)) (recs : List DsRecord)
    (hok : ∀ a, (resp a).code = 200)
    (hconv : (buildPayload dc cols 0 rows).2 = .ok recs) :
    upload_resource_records dc resp rid cols rows
      = (.call (.delete rid) :: .call (.create rid cols)
          :: chunkEvents rid 0 (chunky recs 1024), none)
    ∧ convertNums (upload_resource_records dc resp rid cols rows).1
        = List.range' 0 recs.length := by
  have h := upload_trace_ok dc resp rid cols rows recs hok hconv
  refine ⟨h, ?_⟩
  rw [h]
  have h1 : convertNums (Event.call (DsAction.delete rid) :: Event.call (DsAction.create rid cols)
      :: chunkEvents rid 0 (chunky recs 1024)) = convertNums (chunkEvents rid 0 (chunky recs 1024)) := rfl
  rw [h1, convertNums_chunkEvents]
  congr 1
  have hflat : (chunky recs 1024).flatten = recs :=
    chunky_flatten 1024 (by norm_num) recs.length recs (le_refl _)
  rw [← List.length_flatten, hflat]

/-- Witness for C9 (amended) at a concrete two-row upload. -/
theorem c9_amended_sequential_batches_witness :
    upload_resource_records (fun _ => none) respAllOk "r" [⟨"a", "text"⟩] [["x"], ["y"]]
      = (.call (.delete "r") :: .call (.create "r" [⟨"a", "text"⟩])
          :: chunkEvents "r" 0 (chunky [[("a", PyVal.str "x")], [("a", PyVal.str "y")]] 1024),
         none)
    ∧ convertNums (upload_resource_records (fun _ => none) respAllOk "r"
        [⟨"a", "text"⟩] [["x"], ["y"]]).1
        = List.range' 0 ([[("a", PyVal.str "x")], [("a", PyVal.str "y")]] : List DsRecord).length :=
  c9_amended_sequential_batches (fun _ => none) respAllOk "r" [⟨"a", "text"⟩]
    [["x"], ["y"]] [[("a", PyVal.str "x")], [("a", PyVal.str "y")]] (fun _ => rfl) rfl

/-! ### Lemmas for the row-shape claim -/

theorem insertRecords_buildPayload_fst (dc : String → Option PyVal) (cols : List Column) :
    ∀ (l : List (List String)) (r : Nat),
      insertRecords (buildPayload dc cols r l).1 = [] := by
  intro l
  induction l with
  | nil => intro r; rfl
  | cons row rest ih =>
      intro r
      simp only [buildPayload]
      cases hfr : format_record dc r row cols with
      | error e => rfl
      | ok r0 => simpa [insertRecords] using ih (r + 1)

theorem buildPayload_error_of_badrow (dc : String → Option PyVal) (cols : List Column) :
    ∀ (c : List (List String)) (j : Nat) (hj : j < c.length),
      (c.get ⟨j, hj⟩).length ≠ cols.length →
      ∀ r, ∃ e, (buildPayload dc cols r c).2 = .error e := by
  intro c
  induction c with
  | nil => intro j hj; simp at hj
  | cons row rest ih =>
      intro j hj hbad r
      cases j with
      | zero =>
          simp only [List.get] at hbad
          have hfr : format_record dc r row cols = .error (.rowShape r cols.length) := by
            unfold format_record
            rw [if_pos (fun hh => hbad hh.symm)]
          refine ⟨.rowShape r cols.length, ?_⟩
          simp only [buildPayload, hfr]
      | succ j' =>
          simp only [List.length_cons, Nat.succ_lt_succ_iff] at hj
          simp only [List.get] at hbad
          cases hfr : format_record dc r row cols with
          | error e =>
              refine ⟨e, ?_⟩
              simp only [buildPayload, hfr]
          | ok r0 =>
              obtain ⟨e, he⟩ := ih j' hj hbad (r + 1)
              refine ⟨e, ?_⟩
              simp only [buildPayload, hfr]
              rw [he]
              rfl

theorem countInserts_append (xs ys : List Event) :
    countInserts (xs ++ ys) = countInserts xs + countInserts ys := by
  simp [countInserts, insertRecords_append]

theorem uploadChunks_countInserts_le (dc : String → Option PyVal)
    (resp : DsAction → HttpResponse) (rid : String) (cols : List Column) :
    ∀ (chunks : List (List (List String))) (r k : Nat) (hk : k < chunks.length),
      (∀ r', ∃ e, (buildPayload dc cols r' (chunks.get ⟨k, hk⟩)).2 = .error e) →
      countInserts (uploadChunks dc resp rid cols r chunks).1 ≤ k := by
  intro chunks
  induction chunks with
  | nil => intro r k hk; simp at hk
  | cons c cs ih =>
      intro r k hk hbad
      cases k with
      | zero =>
          obtain ⟨e, he⟩ := hbad r
          simp only [List.get] at he
          simp only [uploadChunks]
          have hpair : buildPayload dc cols r c = ((buildPayload dc cols r c).1, Except.error e) :=
            Prod.ext rfl he
          rw [hpair]
          dsimp only
          simp [countInserts, insertRecords_buildPayload_fst]
      | succ k' =>
          simp only [List.length_cons, Nat.succ_lt_succ_iff] at hk
          simp only [uploadChunks]
          cases hbp : (buildPayload dc cols r c).2 with
          | error e =>
              have hpair : buildPayload dc cols r c
                  = ((buildPayload dc cols r c).1, Except.error e) := Prod.ext rfl hbp
              rw [hpair]
              dsimp only
              simp [countInserts, insertRecords_buildPayload_fst]
          | ok payload =>
              have hpair : buildPayload dc cols r c
                  = ((buildPayload dc cols r c).1, Except.ok payload) := Prod.ext rfl hbp
              rw [hpair]
              dsimp only
              cases hck : ckan (resp (DsAction.insert rid payload)) none with
              | error e =>
                  dsimp only
                  rw [countInserts_append]
                  have h1 : countInserts (buildPayload dc cols r c).1 = 0 := by
                    simp [countInserts, insertRecords_buildPayload_fst]
                  rw [h1]
                  simp [countInserts, insertRecords]
              | ok u =>
                  cases u
                  dsimp only
                  rw [countInserts_append]
                  have h1 : countInserts (buildPayload dc cols r c).1 = 0 := by
                    simp [countInserts, insertRecords_buildPayload_fst]
                  rw [h1]
                  have hbad' : ∀ r', ∃ e,
                      (buildPayload dc cols r' (cs.get ⟨k', hk⟩)).2 = .error e := by
                    intro r'
                    obtain ⟨e, he⟩ := hbad r'
                    exact ⟨e, he⟩
                  have h2 := ih (r + c.length) k' hk hbad'
                  have h3 : countInserts
                      (Event.call (DsAction.insert rid payload)
                        :: (uploadChunks dc resp rid cols (r + c.length) cs).1)
                      = countInserts (uploadChunks dc resp rid cols (r + c.length) cs).1 + 1 := by
                    simp [countInserts, insertRecords]
                  rw [h3]
                  omega

theorem chunky_get {α : Type} (n : Nat) (hn : 0 < n) :
    ∀ (fuel : Nat) (l : List α), l.length ≤ fuel → ∀ (i : Nat) (hi : i < l.length),
      ∃ (hk : i / n < (chunky l n).length)
        (hj : i % n < ((chunky l n).get ⟨i / n, hk⟩).length),
        ((chunky l n).get ⟨i / n, hk⟩).get ⟨i % n, hj⟩ = l.get ⟨i, hi⟩ := by
  intro fuel
  induction fuel with
  | zero =>
      intro l hl i hi
      have : l = [] := List.length_eq_zero.mp (Nat.le_zero.mp hl)
      subst this
      simp at hi
  | succ f ih =>
      intro l hl i hi
      have hne : l ≠ [] := by
        intro hh
        subst hh
        simp at hi
      rw [chunky_cons_eq l n hne hn]
      rcases Nat.lt_or_ge i n with hlt | hge
      · have hdiv : i / n = 0 := Nat.div_eq_of_lt hlt
        have hmod : i % n = i := Nat.mod_eq_of_lt hlt
        rw [hdiv, hmod]
        have hk : (0 : Nat) < (l.take n :: chunky (l.drop n) n).length := by simp
        have hj : i < (l.take n).length := by
          rw [List.length_take]
          omega
        refine ⟨hk, ?_, ?_⟩
        · simpa using hj
        · simp only [List.get]
          exact (List.get_take l hi hlt).symm
      · have hdiv : i / n = (i - n) / n + 1 := Nat.div_eq_sub_div hn hge
        have hmod : i % n = (i - n) % n := Nat.mod_eq_sub_mod hge
        have hi' : i - n < (l.drop n).length := by
          rw [List.length_drop]
          omega
        have hfuel : (l.drop n).length ≤ f := by
          rw [List.length_drop]
          have : 0 < l.length := by omega
          omega
        obtain ⟨hk', hj', heq⟩ := ih (l.drop n) hfuel (i - n) hi'
        rw [hdiv, hmod]
        have hk : (i - n) / n + 1 < (l.take n :: chunky (l.drop n) n).length := by
          simpa using hk'
        refine ⟨hk, ?_, ?_⟩
        · simpa using hj'
        · simp only [List.get]
          rw [heq]
          have h2 : n + (i - n) < l.length := by omega
          rw [(List.get_drop l h2).symm]
          congr 1
          apply Fin.ext
          show n + (i - n) = i
          omega

/-- C5: a row whose cell count differs from the resolved column count makes
row conversion raise `RowShapeError`, and no insert call containing that row
or any row of its batch is ever submitted: the number of insert calls in the
whole pipeline trace is at most the row's batch index `i / 1024`, so the
batch containing it is never inserted. -/
theorem c5_row_shape_stops_batch (dc : String → Option PyVal)
    (resp : DsAction → HttpResponse) (rid : String) (cols : List Column)
    (rows : List (List String)) (i : Nat) (hi : i < rows.length)
    (hbad : (rows.get ⟨i, hi⟩).length ≠ cols.length) :
    format_record dc i (rows.get ⟨i, hi⟩) cols = .error (.rowShape i cols.length)
    ∧ countInserts (upload_resource_records dc resp rid cols rows).1 ≤ i / 1024 := by
  constructor
  · unfold format_record
    rw [if_pos (fun hh => hbad hh.symm)]
  · obtain ⟨hk, hj, heq⟩ := chunky_get 1024 (by norm_num) rows.length rows (le_refl _) i hi
    have hbadchunk : ∀ r', ∃ e,
        (buildPayload dc cols r' ((chunky rows 1024).get ⟨i / 1024, hk⟩)).2 = .error e := by
      intro r'
      apply buildPayload_error_of_badrow dc cols _ (i % 1024) hj
      rw [heq]
      exact hbad
    unfold upload_resource_records
    cases hd : ckan (resp (DsAction.delete rid)) (some notFoundHandler) with
    | error e => simp [countInserts, insertRecords]
    | ok u =>
        cases u
        dsimp only
        have hci : countInserts (Event.call (DsAction.delete rid)
            :: (createAndInsert dc resp rid cols rows).1)
            = countInserts (createAndInsert dc resp rid cols rows).1 := by
          simp [countInserts, insertRecords]
        rw [hci]
        unfold createAndInsert
        cases hc : ckan (resp (DsAction.create rid cols)) none with
        | error e => simp [countInserts, insertRecords]
        | ok u =>
            cases u
            dsimp only
            have hcc : countInserts (Event.call (DsAction.create rid cols)
                :: (uploadChunks dc resp rid cols 0 (chunky rows 1024)).1)
                = countInserts (uploadChunks dc resp rid cols 0 (chunky rows 1024)).1 := by
              simp [countInserts, insertRecords]
            rw [hcc]
            exact uploadChunks_countInserts_le dc resp rid cols (chunky rows 1024) 0
              (i / 1024) hk hbadchunk

/-- Witness for C5: a two-cell row against a one-column schema. -/
theorem c5_row_shape_stops_batch_witness :
    format_record (fun _ => none) 0 ["x", "y"] [⟨"a", "text"⟩]
      = .error (.rowShape 0 1)
    ∧ countInserts (upload_resource_records (fun _ => none) respAllOk "r"
        [⟨"a", "text"⟩] [["x", "y"]]).1 ≤ 0 / 1024 := by
  have h := c5_row_shape_stops_batch (fun _ => none) respAllOk "r" [⟨"a", "text"⟩]
    [["x", "y"]] 0 (by decide) (by decide)
  exact ⟨h.1, h.2⟩

/-! ### Character-level facts for header normalization -/

theorem charToNat_inj {a b : Char} (h : a.toNat = b.toNat) : a = b :=
  Char.ext (UInt32.ext h)

theorem isValidChar_of_first (c : Char) (h : isValidFirst c = true) :
    isValidChar c = true := by
  simp only [isValidFirst, Bool.or_eq_true] at h
  rcases h with h | h
  · simp [isValidChar, h]
  · simp [isValidChar, h]

theorem validChar_toNat (c : Char) (h : isValidChar c = true) :
    48 ≤ c.toNat ∧ c.toNat < 128 := by
  simp only [isValidChar, isLowerAlpha, isDigitChar, Bool.or_eq_true, Bool.and_eq_true,
    decide_eq_true_eq] at h
  rcases h with (⟨h1, h2⟩ | ⟨h1, h2⟩) | h
  · omega
  · omega
  · subst h
    decide

theorem validChar_not_space (c : Char) (h : isValidChar c = true) :
    isPySpace c = false := by
  by_contra hsp
  rw [Bool.not_eq_false] at hsp
  simp only [isPySpace, Bool.or_eq_true, decide_eq_true_eq] at hsp
  rcases hsp with ((((h1 | h1) | h1) | h1) | h1) | h1 <;> subst h1 <;>
    exact absurd h (by decide)

theorem dropWhile_eq_self_of_false (p : Char → Bool) (l : List Char)
    (h : ∀ c ∈ l, p c = false) : l.dropWhile p = l := by
  cases l with
  | nil => rfl
  | cons a t =>
      rw [List.dropWhile_cons]
      rw [h a (by simp)]
      simp

theorem pyStripChars_eq_self (l : List Char) (h : ∀ c ∈ l, isPySpace c = false) :
    pyStripChars l = l := by
  unfold pyStripChars
  rw [dropWhile_eq_self_of_false _ _ h,
    dropWhile_eq_self_of_false _ _ (fun c hc => h c (List.mem_reverse.mp hc)),
    List.reverse_reverse]

theorem regex_chars_valid (n : List Char) (h : matchesColumnRegex n = true) :
    ∀ c ∈ n, isValidChar c = true := by
  cases n with
  | nil => simp [matchesColumnRegex] at h
  | cons a t =>
      simp only [matchesColumnRegex, Bool.and_eq_true, List.all_eq_true] at h
      intro c hc
      rcases List.mem_cons.mp hc with h1 | h1
      · subst h1
        exact isValidChar_of_first c h.1
      · exact h.2 c h1

theorem regex_ne_nil (n : List Char) (h : matchesColumnRegex n = true) : n ≠ [] := by
  intro hh
  subst hh
  simp [matchesColumnRegex] at h

theorem regex_append (a b : List Char) (ha : matchesColumnRegex a = true)
    (hb : ∀ c ∈ b, isValidChar c = true) : matchesColumnRegex (a ++ b) = true := by
  cases a with
  | nil => simp [matchesColumnRegex] at ha
  | cons c rest =>
      simp only [matchesColumnRegex, Bool.and_eq_true, List.all_eq_true] at ha
      simp only [List.cons_append, matchesColumnRegex, Bool.and_eq_true, List.all_eq_true]
      refine ⟨ha.1, fun x hx => ?_⟩
      rcases List.mem_append.mp hx with h1 | h1
      · exact ha.2 x h1
      · exact hb x h1

theorem regex_take (base : List Char) (m : Nat) (hm : 0 < m)
    (hb : matchesColumnRegex base = true) : matchesColumnRegex (base.take m) = true := by
  cases base with
  | nil => simp [matchesColumnRegex] at hb
  | cons c rest =>
      cases m with
      | zero => omega
      | succ mm =>
          rw [List.take_succ_cons]
          simp only [matchesColumnRegex, Bool.and_eq_true, List.all_eq_true] at hb ⊢
          exact ⟨hb.1, fun x hx => hb.2 x (List.mem_of_mem_take hx)⟩

theorem normalize_header_valid (lower : Char → Char) (fold : Char → List Char)
    (h : String) : matchesColumnRegex (normalize_header lower fold h) = true := by
  unfold normalize_header
  generalize ((pyStripChars (h.data.map lower)).map fold).flatten = h2
  have hfilter : ∀ (l : List Char), ∀ c ∈ l.filter isValidChar, isValidChar c = true :=
    fun l c hc => (List.mem_filter.mp hc).2
  cases h2 with
  | nil => decide
  | cons c rest =>
      simp only [fixFirstChar]
      by_cases hvf : isValidFirst c = true
      · rw [if_pos hvf, List.filter_cons_of_pos (isValidChar_of_first c hvf)]
        simp only [matchesColumnRegex, Bool.and_eq_true, List.all_eq_true]
        exact ⟨hvf, fun x hx => hfilter rest x hx⟩
      · rw [if_neg hvf, List.filter_cons_of_pos (by decide)]
        simp only [matchesColumnRegex, Bool.and_eq_true, List.all_eq_true]
        exact ⟨by decide, fun x hx => hfilter (c :: rest) x hx⟩

/-! ### Facts about the decimal digit strings of the suffix counters -/

theorem natDigits_length_le (c d : Nat) (h : c < 10 ^ d) : (natDigits c).length ≤ d := by
  simp only [natDigits, List.length_reverse, List.length_map]
  by_cases hc : c = 0
  · subst hc
    simp
  · rw [Nat.digits_len 10 c (by norm_num) hc]
    have hlog : Nat.log 10 c < d := Nat.log_lt_of_lt_pow hc h
    omega

theorem natDigits_length_eq (c d : Nat) (h1 : 10 ^ d ≤ c) (h2 : c < 10 ^ (d + 1)) :
    (natDigits c).length = d + 1 := by
  have hp : 0 < 10 ^ d := Nat.pos_pow_of_pos d (by norm_num)
  have hc : c ≠ 0 := by omega
  simp only [natDigits, List.length_reverse, List.length_map]
  rw [Nat.digits_len 10 c (by norm_num) hc, Nat.log_eq_of_pow_le_of_lt_pow h1 h2]

theorem natDigits_length_mono (c cc : Nat) (h : c ≤ cc) :
    (natDigits c).length ≤ (natDigits cc).length := by
  simp only [natDigits, List.length_reverse, List.length_map]
  exact Nat.le_digits_len_le 10 c cc h

theorem digitChar_inj_lt (a b : Nat) (ha : a < 10) (hb : b < 10)
    (h : Nat.digitChar a = Nat.digitChar b) : a = b := by
  interval_cases a <;> interval_cases b <;> first | rfl | exact absurd h (by decide)

theorem map_digitChar_inj : ∀ (l1 l2 : List Nat), (∀ x ∈ l1, x < 10) →
    (∀ x ∈ l2, x < 10) → l1.map Nat.digitChar = l2.map Nat.digitChar → l1 = l2 := by
  intro l1
  induction l1 with
  | nil =>
      intro l2 _ _ h
      cases l2 with
      | nil => rfl
      | cons b u => simp at h
  | cons a t ih =>
      intro l2 h1 h2 h
      cases l2 with
      | nil => simp at h
      | cons b u =>
          simp only [List.map_cons, List.cons.injEq] at h
          have hab : a = b :=
            digitChar_inj_lt a b (h1 a (by simp)) (h2 b (by simp)) h.1
          subst hab
          rw [ih u (fun x hx => h1 x (by simp [hx])) (fun x hx => h2 x (by simp [hx])) h.2]

theorem natDigits_injective (c cc : Nat) (h : natDigits c = natDigits cc) : c = cc := by
  simp only [natDigits] at h
  have h2 : (Nat.digits 10 c).map Nat.digitChar = (Nat.digits 10 cc).map Nat.digitChar := by
    have := congrArg List.reverse h
    simpa using this
  have h3 : Nat.digits 10 c = Nat.digits 10 cc :=
    map_digitChar_inj _ _ (fun x hx => Nat.digits_lt_base (by norm_num) hx)
      (fun x hx => Nat.digits_lt_base (by norm_num) hx) h2
  have h4 := congrArg (Nat.ofDigits 10) h3
  rwa [Nat.ofDigits_digits, Nat.ofDigits_digits] at h4

theorem natDigits_chars_valid (c : Nat) : ∀ ch ∈ natDigits c, isValidChar ch = true := by
  intro ch hch
  simp only [natDigits, List.mem_reverse, List.mem_map] at hch
  obtain ⟨d, hd, hdc⟩ := hch
  have hlt : d < 10 := Nat.digits_lt_base (by norm_num) hd
  subst hdc
  interval_cases d <;> decide

/-! ### Facts about the counter-suffixed candidates -/

theorem suffixCandidate_valid (base : List Char) (c : Nat)
    (hb : matchesColumnRegex base = true) (hd : (natDigits c).length ≤ 23) :
    matchesColumnRegex (suffixCandidate base 24 c) = true
    ∧ (suffixCandidate base 24 c).length ≤ 24 := by
  constructor
  · unfold suffixCandidate
    exact regex_append _ _ (regex_take base _ (by omega) hb) (natDigits_chars_valid c)
  · unfold suffixCandidate
    rw [List.length_append, List.length_take]
    omega

theorem suffixCandidate_inj_class (base : List Char) (d : Nat) (c cc : Nat)
    (h1 : (natDigits c).length = d) (h2 : (natDigits cc).length = d)
    (h : suffixCandidate base 24 c = suffixCandidate base 24 cc) : c = cc := by
  unfold suffixCandidate at h
  rw [h1, h2] at h
  exact natDigits_injective c cc (List.append_cancel_left h)

theorem searchSuffix_some (taken : List (List Char)) (base : List Char) (maxLen : Nat) :
    ∀ (fuel c c0 : Nat), c ≤ c0 → c0 < c + fuel →
      suffixCandidate base maxLen c0 ∉ taken →
      ∃ cf, c ≤ cf ∧ cf ≤ c0 ∧ suffixCandidate base maxLen cf ∉ taken
        ∧ searchSuffix taken base maxLen fuel c
            = some (suffixCandidate base maxLen cf) := by
  intro fuel
  induction fuel with
  | zero =>
      intro c c0 h1 h2 _
      omega
  | succ f ih =>
      intro c c0 h1 h2 hfree
      by_cases hmem : suffixCandidate base maxLen c ∈ taken
      · have hne : c ≠ c0 := by
          intro hh
          subst hh
          exact hfree hmem
        obtain ⟨cf, ha, hb, hc', hd⟩ := ih (c + 1) c0 (by omega) (by omega) hfree
        refine ⟨cf, by omega, hb, hc', ?_⟩
        simp only [searchSuffix]
        rw [if_pos hmem]
        exact hd
      · refine ⟨c, le_refl c, h1, hmem, ?_⟩
        simp only [searchSuffix]
        rw [if_neg hmem]

theorem pickName_fresh (taken : List (List Char)) (base : List Char)
    (hbase : matchesColumnRegex base = true) (hN : taken.length < 10 ^ 21) :
    pickName taken base 24 ∉ taken
    ∧ matchesColumnRegex (pickName taken base 24) = true
    ∧ (pickName taken base 24).length ≤ 24 := by
  have htake_valid : matchesColumnRegex (base.take 24) = true :=
    regex_take base 24 (by norm_num) hbase
  have htake_len : (base.take 24).length ≤ 24 := by
    rw [List.length_take]
    omega
  unfold pickName
  by_cases ht : base.take 24 ∈ taken
  · rw [if_pos ht]
    have hN0 : taken.length ≠ 0 := by
      intro hh
      rw [List.length_eq_zero] at hh
      subst hh
      simp at ht
    set N := taken.length with hNdef
    set d := Nat.log 10 N + 2 with hddef
    have hd22 : d ≤ 22 := by
      have h21 : Nat.log 10 N < 21 := Nat.log_lt_of_lt_pow hN0 hN
      omega
    have hgN : N < 10 ^ (d - 1) := by
      have hlt := Nat.lt_pow_succ_log_self (b := 10) (by norm_num) N
      have hd1 : d - 1 = Nat.log 10 N + 1 := by omega
      rw [hd1]
      exact hlt
    have hfuel : 10 ^ d ≤ 100 * (N + 1) := by
      have hle : 10 ^ Nat.log 10 N ≤ N := Nat.pow_log_le_self 10 hN0
      have hexp : 10 ^ d = 10 ^ Nat.log 10 N * 100 := by
        rw [hddef, pow_add]
        norm_num
      omega
    have hclass_len : ∀ c0, 10 ^ (d - 1) ≤ c0 → c0 < 10 ^ d →
        (natDigits c0).length = d := by
      intro c0 hc1 hc2
      have hd1 : d - 1 + 1 = d := by omega
      have := natDigits_length_eq c0 (d - 1) hc1 (by rw [hd1]; exact hc2)
      omega
    have hfree : ∃ c0, 10 ^ (d - 1) ≤ c0 ∧ c0 < 10 ^ d
        ∧ suffixCandidate base 24 c0 ∉ taken := by
      by_contra hall
      push_neg at hall
      have himg : (Finset.Ico (10 ^ (d - 1)) (10 ^ d)).image (suffixCandidate base 24)
          ⊆ taken.toFinset := by
        intro x hx
        simp only [Finset.mem_image, Finset.mem_Ico] at hx
        obtain ⟨c0, ⟨hc1, hc2⟩, hx⟩ := hx
        subst hx
        exact List.mem_toFinset.mpr (hall c0 hc1 hc2)
      have hinj : Set.InjOn (suffixCandidate base 24)
          ((Finset.Ico (10 ^ (d - 1)) (10 ^ d)) : Finset Nat) := by
        intro x hx y hy hxy
        simp only [Finset.coe_Ico, Set.mem_Ico] at hx hy
        exact suffixCandidate_inj_class base d x y (hclass_len x hx.1 hx.2)
          (hclass_len y hy.1 hy.2) hxy
      have hcard1 := Finset.card_image_of_injOn hinj
      have hcard2 := Finset.card_le_card himg
      rw [hcard1, Nat.card_Ico] at hcard2
      have hcard3 : taken.toFinset.card ≤ N := List.toFinset_card_le taken
      have hpow : 10 ^ d = 10 ^ (d - 1) * 10 := by
        calc 10 ^ d = 10 ^ (d - 1 + 1) := by rw [Nat.sub_add_cancel (by omega)]
          _ = 10 ^ (d - 1) * 10 := pow_succ 10 (d - 1)
      omega
    obtain ⟨c0, hc01, hc02, hc0free⟩ := hfree
    have hc0ge1 : 1 ≤ c0 := by
      have hp : 0 < 10 ^ (d - 1) := Nat.pos_pow_of_pos _ (by norm_num)
      omega
    obtain ⟨cf, hcf1, hcf2, hcffree, hcfeq⟩ := searchSuffix_some taken base 24
      (100 * (N + 1)) 1 c0 hc0ge1 (by omega) hc0free
    rw [hcfeq]
    have hcflen : (natDigits cf).length ≤ 23 := by
      have hm := natDigits_length_mono cf c0 hcf2
      have hc0len := hclass_len c0 hc01 hc02
      omega
    obtain ⟨hv, hl⟩ := suffixCandidate_valid base cf hbase hcflen
    exact ⟨hcffree, hv, hl⟩
  · rw [if_neg ht]
    exact ⟨ht, htake_valid, htake_len⟩

/-! ### Properties of the full header de-duplication -/

theorem makeUniqueAux_length :
    ∀ (bs acc : List (List Char)),
      (makeUniqueAux 24 acc bs).length = acc.length + bs.length := by
  intro bs
  induction bs with
  | nil =>
      intro acc
      simp [makeUniqueAux]
  | cons b bs ih =>
      intro acc
      simp only [makeUniqueAux]
      rw [ih (pickName acc b 24 :: acc)]
      simp only [List.length_cons]
      omega

theorem makeUniqueAux_good :
    ∀ (bs acc : List (List Char)),
      (∀ b ∈ bs, matchesColumnRegex b = true) →
      acc.Nodup →
      (∀ nm ∈ acc, matchesColumnRegex nm = true ∧ nm.length ≤ 24) →
      acc.length + bs.length ≤ 10 ^ 21 →
      (makeUniqueAux 24 acc bs).Nodup
      ∧ ∀ nm ∈ makeUniqueAux 24 acc bs,
          matchesColumnRegex nm = true ∧ nm.length ≤ 24 := by
  intro bs
  induction bs with
  | nil =>
      intro acc _ hnd hprops _
      simp only [makeUniqueAux]
      refine ⟨by simpa using hnd, ?_⟩
      intro nm hnm
      exact hprops nm (List.mem_reverse.mp hnm)
  | cons b bs ih =>
      intro acc hbs hnd hprops hbound
      simp only [makeUniqueAux]
      have hNlt : acc.length < 10 ^ 21 := by
        simp only [List.length_cons] at hbound
        omega
      obtain ⟨hfresh, hv, hl⟩ := pickName_fresh acc b (hbs b (by simp)) hNlt
      apply ih (pickName acc b 24 :: acc) (fun x hx => hbs x (by simp [hx]))
      · rw [List.nodup_cons]
        exact ⟨hfresh, hnd⟩
      · intro nm hnm
        rcases List.mem_cons.mp hnm with h1 | h1
        · subst h1
          exact ⟨hv, hl⟩
        · exact hprops nm h1
      · simp only [List.length_cons] at hbound ⊢
        omega

theorem resolve_headers_length (lower : Char → Char) (fold : Char → List Char)
    (hs : List String) : (resolve_headers lower fold hs).length = hs.length := by
  unfold resolve_headers headers_make_unique
  rw [makeUniqueAux_length]
  simp

theorem resolve_headers_good (lower : Char → Char) (fold : Char → List Char)
    (hs : List String) (hlen : hs.length ≤ 10 ^ 21) :
    (resolve_headers lower fold hs).Nodup
    ∧ ∀ nm ∈ resolve_headers lower fold hs,
        matchesColumnRegex nm = true ∧ nm.length ≤ 24 := by
  unfold resolve_headers headers_make_unique
  apply makeUniqueAux_good (hs.map (normalize_header lower fold)) []
  · intro b hb
    obtain ⟨s, _, rfl⟩ := List.mem_map.mp hb
    exact normalize_header_valid lower fold s
  · exact List.nodup_nil
  · simp
  · simpa using hlen

/-! ### Counting the valid names (for the unbounded-claim refutation) -/

theorem encodeName_lt : ∀ (s : List Char) (L : Nat),
    (∀ c ∈ s, isValidChar c = true) → s.length ≤ L → encodeName s < 128 ^ L := by
  intro s
  induction s with
  | nil =>
      intro L _ _
      exact Nat.pos_pow_of_pos L (by norm_num)
  | cons c cs ih =>
      intro L hval hlen
      cases L with
      | zero => simp at hlen
      | succ L2 =>
          simp only [encodeName]
          have h1 : encodeName cs < 128 ^ L2 :=
            ih L2 (fun x hx => hval x (by simp [hx])) (by simp at hlen; omega)
          have h2 : c.toNat < 128 := (validChar_toNat c (hval c (by simp))).2
          have h3 : 128 ^ (L2 + 1) = 128 * 128 ^ L2 := by
            rw [pow_succ]
            ring
          omega

theorem encodeName_pos (s : List Char) (hne : s ≠ [])
    (hval : ∀ c ∈ s, isValidChar c = true) : 1 ≤ encodeName s := by
  cases s with
  | nil => exact absurd rfl hne
  | cons c cs =>
      simp only [encodeName]
      have := (validChar_toNat c (hval c (by simp))).1
      omega

theorem encodeName_inj : ∀ (s t : List Char), (∀ c ∈ s, isValidChar c = true) →
    (∀ c ∈ t, isValidChar c = true) → encodeName s = encodeName t → s = t := by
  intro s
  induction s with
  | nil =>
      intro t _ hvt h
      cases t with
      | nil => rfl
      | cons b bs =>
          exfalso
          simp only [encodeName] at h
          have := (validChar_toNat b (hvt b (by simp))).1
          omega
  | cons c cs ih =>
      intro t hvs hvt h
      cases t with
      | nil =>
          exfalso
          simp only [encodeName] at h
          have := (validChar_toNat c (hvs c (by simp))).1
          omega
      | cons b bs =>
          simp only [encodeName] at h
          have hc := validChar_toNat c (hvs c (by simp))
          have hb := validChar_toNat b (hvt b (by simp))
          have heq1 : c.toNat = b.toNat := by omega
          have heq2 : encodeName cs = encodeName bs := by omega
          rw [charToNat_inj heq1,
            ih bs (fun x hx => hvs x (by simp [hx])) (fun x hx => hvt x (by simp [hx])) heq2]

/-! ### Fixed points of the normalization -/

theorem flatten_map_singleton : ∀ (l : List Char), (l.map (fun c => [c])).flatten = l := by
  intro l
  induction l with
  | nil => rfl
  | cons a t ih => simp [ih]

theorem normalize_header_fixed (lower : Char → Char) (fold : Char → List Char)
    (hfix : ∀ c, isValidChar c = true → lower c = c ∧ fold c = [c])
    (n : List Char) (hv : matchesColumnRegex n = true) :
    normalize_header lower fold ⟨n⟩ = n := by
  have hvc := regex_chars_valid n hv
  unfold normalize_header
  have hdata : (String.mk n).data = n := rfl
  rw [hdata]
  have hmap : n.map lower = n := by
    have h1 : n.map lower = n.map id :=
      List.map_congr_left (fun c hc => (hfix c (hvc c hc)).1)
    rw [h1, List.map_id]
  rw [hmap, pyStripChars_eq_self n (fun c hc => validChar_not_space c (hvc c hc))]
  have hfold : n.map fold = n.map (fun c => [c]) :=
    List.map_congr_left (fun c hc => (hfix c (hvc c hc)).2)
  rw [hfold, flatten_map_singleton]
  cases n with
  | nil => simp [matchesColumnRegex] at hv
  | cons c rest =>
      simp only [matchesColumnRegex, Bool.and_eq_true, List.all_eq_true] at hv
      simp only [fixFirstChar]
      rw [if_pos hv.1]
      rw [List.filter_eq_self.mpr]
      intro a ha
      rcases List.mem_cons.mp ha with h1 | h1
      · subst h1
        exact isValidChar_of_first _ hv.1
      · exact hv.2 a h1

theorem makeUniqueAux_fixed :
    ∀ (bs acc : List (List Char)),
      (∀ b ∈ bs, b.length ≤ 24) → (∀ b ∈ bs, b ∉ acc) → bs.Nodup →
      makeUniqueAux 24 acc bs = acc.reverse ++ bs := by
  intro bs
  induction bs with
  | nil =>
      intro acc _ _ _
      simp [makeUniqueAux]
  | cons b bs ih =>
      intro acc hlen hnotin hnd
      simp only [makeUniqueAux]
      have hpick : pickName acc b 24 = b := by
        unfold pickName
        rw [List.take_of_length_le (hlen b (by simp)), if_neg (hnotin b (by simp))]
      rw [hpick, ih (b :: acc) (fun x hx => hlen x (by simp [hx])) ?_
        (List.nodup_cons.mp hnd).2]
      · simp
      · intro x hx hmem
        rcases List.mem_cons.mp hmem with h1 | h1
        · subst h1
          exact (List.nodup_cons.mp hnd).1 hx
        · exact hnotin x (by simp [hx]) h1

theorem pyLowerAscii_fixes (c : Char) (h : isValidChar c = true) : pyLowerAscii c = c := by
  unfold pyLowerAscii
  rw [if_neg]
  simp only [isValidChar, isLowerAlpha, isDigitChar, Bool.or_eq_true, Bool.and_eq_true,
    decide_eq_true_eq] at h
  simp only [Bool.and_eq_true, decide_eq_true_eq, not_and]
  intro h65
  rcases h with (⟨h1, h2⟩ | ⟨h1, h2⟩) | h1
  · omega
  · omega
  · subst h1
    decide

/-! ### The header-normalization claims -/

/-- C3 (amended): for every input header list of at most `10 ^ 21` headers —
including empty, pure-punctuation, non-ASCII or duplicated headers, and for
every lowercase/decomposition behavior of the external Unicode library —
the resolver's column-name normalization yields one name per header, and the
names are pairwise distinct, non-empty, at most 24 characters long and each
matching `^[a-z_][a-z0-9_]*$`. -/
theorem c3_names_unique_valid (lower : Char → Char) (fold : Char → List Char)
    (hs : List String) (hlen : hs.length ≤ 10 ^ 21) :
    (resolve_headers lower fold hs).length = hs.length
    ∧ (resolve_headers lower fold hs).Nodup
    ∧ ∀ nm ∈ resolve_headers lower fold hs,
        nm ≠ [] ∧ nm.length ≤ 24 ∧ matchesColumnRegex nm = true := by
  obtain ⟨h2, h3⟩ := resolve_headers_good lower fold hs hlen
  refine ⟨resolve_headers_length lower fold hs, h2, fun nm hnm => ?_⟩
  obtain ⟨hv, hl⟩ := h3 nm hnm
  exact ⟨regex_ne_nil nm hv, hl, hv⟩

/-- Witness for C3 (amended) on a header list with an uppercase/space name,
its duplicate, an empty name, a non-ASCII name and a digit-led name. -/
theorem c3_names_unique_valid_witness :
    (resolve_headers pyLowerAscii nfkdAscii ["A B", "a b", "", "é", "1x"]).length
        = (["A B", "a b", "", "é", "1x"] : List String).length
    ∧ (resolve_headers pyLowerAscii nfkdAscii ["A B", "a b", "", "é", "1x"]).Nodup
    ∧ ∀ nm ∈ resolve_headers pyLowerAscii nfkdAscii ["A B", "a b", "", "é", "1x"],
        nm ≠ [] ∧ nm.length ≤ 24 ∧ matchesColumnRegex nm = true :=
  c3_names_unique_valid pyLowerAscii nfkdAscii ["A B", "a b", "", "é", "1x"]
    (by norm_num)

/-- C3 (counterexample to the unbounded claim): on the header list made of
`128 ^ 24` copies of "a", no normalization can produce pairwise-distinct,
non-empty, regex-valid names of at most 24 characters, because fewer than
`128 ^ 24` such names exist; in particular the claim "for every input header
list" fails at this input. -/
theorem c3_counterexample_too_many_headers :
    ¬ ((resolve_headers pyLowerAscii nfkdAscii (List.replicate (128 ^ 24) "a")).Nodup
       ∧ ∀ nm ∈ resolve_headers pyLowerAscii nfkdAscii (List.replicate (128 ^ 24) "a"),
           nm ≠ [] ∧ nm.length ≤ 24 ∧ matchesColumnRegex nm = true) := by
  intro hcl
  obtain ⟨hnd, hval⟩ := hcl
  set out := resolve_headers pyLowerAscii nfkdAscii (List.replicate (128 ^ 24) "a")
    with hout
  have hlen : out.length = 128 ^ 24 := by
    rw [hout, resolve_headers_length, List.length_replicate]
  have hinj : Set.InjOn encodeName (out.toFinset : Finset (List Char)) := by
    intro x hx y hy hxy
    rw [Finset.mem_coe, List.mem_toFinset] at hx hy
    exact encodeName_inj x y (regex_chars_valid x (hval x hx).2.2)
      (regex_chars_valid y (hval y hy).2.2) hxy
  have hcard1 : out.toFinset.card = 128 ^ 24 := by
    rw [List.toFinset_card_of_nodup hnd, hlen]
  have hcard2 : (out.toFinset.image encodeName).card = 128 ^ 24 := by
    rw [Finset.card_image_of_injOn hinj, hcard1]
  have hsub : out.toFinset.image encodeName ⊆ Finset.Ico 1 (128 ^ 24) := by
    intro m hm
    simp only [Finset.mem_image] at hm
    obtain ⟨nm, hnm, hm⟩ := hm
    subst hm
    have hnm2 := List.mem_toFinset.mp hnm
    obtain ⟨hne, hl, hv⟩ := hval nm hnm2
    have hvc := regex_chars_valid nm hv
    rw [Finset.mem_Ico]
    exact ⟨encodeName_pos nm hne hvc, encodeName_lt nm 24 hvc hl⟩
  have hcard3 := Finset.card_le_card hsub
  rw [hcard2, Nat.card_Ico] at hcard3
  have hpos : 0 < 128 ^ 24 := Nat.pos_pow_of_pos _ (by norm_num)
  omega

/-- C8: column-name normalization is idempotent. A name list that is already
its own output — equivalently, a duplicate-free list of regex-valid names of
at most 24 characters, which is exactly what the normalizer produces — is
mapped to itself; consequently, applying the normalization twice to any
header list (of feasible length) equals applying it once. The hypotheses on
`lower` and `fold` say the external Unicode lowercase/decomposition fix the
already-normalized characters `[a-z0-9_]`, as NFKD and `lower()` do. -/
theorem c8_normalization_idempotent (lower : Char → Char) (fold : Char → List Char)
    (hfix : ∀ c, isValidChar c = true → lower c = c ∧ fold c = [c]) :
    (∀ hs : List (List Char),
      (∀ nm ∈ hs, matchesColumnRegex nm = true ∧ nm.length ≤ 24) → hs.Nodup →
      resolve_headers lower fold (hs.map (fun nm => (⟨nm⟩ : String))) = hs)
    ∧ ∀ hs : List String, hs.length ≤ 10 ^ 21 →
        resolve_headers lower fold
            ((resolve_headers lower fold hs).map (fun nm => (⟨nm⟩ : String)))
          = resolve_headers lower fold hs := by
  have hfixed : ∀ hs : List (List Char),
      (∀ nm ∈ hs, matchesColumnRegex nm = true ∧ nm.length ≤ 24) → hs.Nodup →
      resolve_headers lower fold (hs.map (fun nm => (⟨nm⟩ : String))) = hs := by
    intro hs hval hnd
    unfold resolve_headers headers_make_unique
    rw [List.map_map]
    have hmap : hs.map (normalize_header lower fold ∘ fun nm => (⟨nm⟩ : String)) = hs := by
      have hpt : ∀ nm ∈ hs,
          (normalize_header lower fold ∘ fun nm => (⟨nm⟩ : String)) nm = id nm := by
        intro nm hnm
        simp only [Function.comp_apply, id]
        exact normalize_header_fixed lower fold hfix nm (hval nm hnm).1
      rw [List.map_congr_left hpt, List.map_id]
    rw [hmap, makeUniqueAux_fixed hs [] (fun b hb => (hval b hb).2) (by simp) hnd]
    rfl
  refine ⟨hfixed, ?_⟩
  intro hs hlen
  obtain ⟨hnd, hval⟩ := resolve_headers_good lower fold hs hlen
  exact hfixed _ hval hnd

/-- Witness for C8: an already-normalized two-name list is fixed, and
normalizing twice equals normalizing once on a list with duplicates. -/
theorem c8_normalization_idempotent_witness :
    resolve_headers pyLowerAscii nfkdAscii
        (([['a', 'm', 'o', 'u', 'n', 't'], ['x', '1']] : List (List Char)).map
          (fun nm => (⟨nm⟩ : String)))
      = [['a', 'm', 'o', 'u', 'n', 't'], ['x', '1']]
    ∧ resolve_headers pyLowerAscii nfkdAscii
        ((resolve_headers pyLowerAscii nfkdAscii ["B", "B"]).map
          (fun nm => (⟨nm⟩ : String)))
      = resolve_headers pyLowerAscii nfkdAscii ["B", "B"] := by
  have hfix : ∀ c, isValidChar c = true → pyLowerAscii c = c ∧ nfkdAscii c = [c] :=
    fun c hc => ⟨pyLowerAscii_fixes c hc, rfl⟩
  have h := c8_normalization_idempotent pyLowerAscii nfkdAscii hfix
  exact ⟨h.1 _ (by decide) (by decide), h.2 ["B", "B"] (by norm_num)⟩

end DatastoreLoader
